import Mathlib

/-!
Shallow embedding of `src/main.rs` of the ai-risk-evaluator service.

The service exposes one handler (`evaluate_risks`) that calls an LLM
completion API (`analyze_risks_ai`), extracts the substring between the
first `[` and the last `]` of the reply's content, parses it with
`serde_json::from_str::<Vec<RiskItem>>`, and falls back to a fixed
two-item risk list on any error.

Strings are modelled as `List Char`.  Rust's `str::find`/`str::rfind`
return byte indices while this embedding uses character indices; because
`[` and `]` are one-byte characters and slicing happens at those
positions, the slice content and the out-of-bounds (panic) condition
`start > end + 1` agree between the two index spaces, so the observable
behaviour is identical.
-/

/-- One structured risk record (struct `RiskItem`, main.rs lines 75-80):
three string fields `severity`, `category`, `mitigation`. -/
structure RiskItem where
  severity : String
  category : String
  mitigation : String

/-- JSON values in the shape produced by `serde_json`.  Objects keep their
fields in textual order: duplicate-field errors are raised by the derived
struct decoder (`decodeFields` below), exactly as serde's derived
`Deserialize` does while streaming.  Numbers keep their lexeme: no claim
inspects a numeric value (the `RiskItem` decoder rejects any number). -/
inductive JsonValue where
  | null
  | bool (b : Bool)
  | num (lexeme : String)
  | str (s : String)
  | arr (items : List JsonValue)
  | obj (fields : List (String × JsonValue))

/-- JSON insignificant whitespace, as accepted by `serde_json`. -/
def isJsonWs (c : Char) : Bool :=
  c == ' ' || c == '\t' || c == '\n' || c == '\r'

/-- Skip leading JSON whitespace. -/
def skipWs : List Char → List Char
  | [] => []
  | c :: cs => if isJsonWs c then skipWs cs else c :: cs

/-- Value of a hexadecimal digit, for `\uXXXX` escapes. -/
def hexVal? (c : Char) : Option Nat :=
  if '0' ≤ c ∧ c ≤ '9' then some (c.toNat - '0'.toNat)
  else if 'a' ≤ c ∧ c ≤ 'f' then some (c.toNat - 'a'.toNat + 10)
  else if 'A' ≤ c ∧ c ≤ 'F' then some (c.toNat - 'A'.toNat + 10)
  else none

/-- Body of a JSON string after the opening quote: returns the decoded
characters and the remaining input after the closing quote.  Follows
`serde_json`: the eight single-character escapes, `\uXXXX` with mandatory
surrogate pairing, and a hard error on unescaped control characters. -/
def parseStringBody : List Char → List Char → Option (List Char × List Char)
  | [], _ => none
  | '"' :: rest, acc => some (acc.reverse, rest)
  | '\\' :: rest, acc =>
    match rest with
    | '"' :: r => parseStringBody r ('"' :: acc)
    | '\\' :: r => parseStringBody r ('\\' :: acc)
    | '/' :: r => parseStringBody r ('/' :: acc)
    | 'b' :: r => parseStringBody r ('\x08' :: acc)
    | 'f' :: r => parseStringBody r ('\x0c' :: acc)
    | 'n' :: r => parseStringBody r ('\n' :: acc)
    | 'r' :: r => parseStringBody r ('\r' :: acc)
    | 't' :: r => parseStringBody r ('\t' :: acc)
    | 'u' :: h1 :: h2 :: h3 :: h4 :: r =>
      match hexVal? h1, hexVal? h2, hexVal? h3, hexVal? h4 with
      | some a, some b, some c, some d =>
        let n := ((a * 16 + b) * 16 + c) * 16 + d
        if 0xD800 ≤ n ∧ n ≤ 0xDBFF then
          match r with
          | '\\' :: 'u' :: g1 :: g2 :: g3 :: g4 :: r2 =>
            match hexVal? g1, hexVal? g2, hexVal? g3, hexVal? g4 with
            | some a2, some b2, some c2, some d2 =>
              let m := ((a2 * 16 + b2) * 16 + c2) * 16 + d2
              if 0xDC00 ≤ m ∧ m ≤ 0xDFFF then
                parseStringBody r2
                  (Char.ofNat (0x10000 + (n - 0xD800) * 0x400 + (m - 0xDC00)) :: acc)
              else none
            | _, _, _, _ => none
          | _ => none
        else if 0xDC00 ≤ n ∧ n ≤ 0xDFFF then none
        else parseStringBody r (Char.ofNat n :: acc)
      | _, _, _, _ => none
    | _ => none
  | c :: rest, acc => if c.toNat < 0x20 then none else parseStringBody rest (c :: acc)

/-- Take a maximal run of decimal digits. -/
def takeDigits : List Char → List Char × List Char
  | [] => ([], [])
  | c :: cs =>
    if c.isDigit then
      let p := takeDigits cs
      (c :: p.1, p.2)
    else ([], c :: cs)

/-- Integer part of a JSON number: `0`, or a nonzero digit followed by
digits (the JSON grammar; `01` is not a single number token). -/
def parseIntPart : List Char → Option (List Char × List Char)
  | [] => none
  | c :: cs =>
    if c = '0' then some (['0'], cs)
    else if c.isDigit then
      let p := takeDigits cs
      some (c :: p.1, p.2)
    else none

/-- Optional fraction part: empty, or `.` followed by at least one digit. -/
def parseFrac : List Char → Option (List Char × List Char)
  | '.' :: cs =>
    match takeDigits cs with
    | ([], _) => none
    | (ds, rest) => some ('.' :: ds, rest)
  | cs => some ([], cs)

/-- Exponent digits after the `e`/`E` marker and optional sign. -/
def parseExpTail (pre : List Char) (cs : List Char) : Option (List Char × List Char) :=
  match takeDigits cs with
  | ([], _) => none
  | (ds, rest) => some (pre ++ ds, rest)

/-- Optional exponent part: empty, or `e`/`E`, optional sign, digits. -/
def parseExp : List Char → Option (List Char × List Char)
  | 'e' :: '+' :: cs => parseExpTail ['e', '+'] cs
  | 'e' :: '-' :: cs => parseExpTail ['e', '-'] cs
  | 'e' :: cs => parseExpTail ['e'] cs
  | 'E' :: '+' :: cs => parseExpTail ['E', '+'] cs
  | 'E' :: '-' :: cs => parseExpTail ['E', '-'] cs
  | 'E' :: cs => parseExpTail ['E'] cs
  | cs => some ([], cs)

/-- Unsigned JSON number lexeme: int part, fraction, exponent. -/
def parseNumberCore (cs : List Char) : Option (List Char × List Char) :=
  match parseIntPart cs with
  | none => none
  | some (ip, r1) =>
    match parseFrac r1 with
    | none => none
    | some (fp, r2) =>
      match parseExp r2 with
      | none => none
      | some (ep, r3) => some (ip ++ fp ++ ep, r3)

/-- A JSON number, with optional leading minus.  The lexeme is kept
verbatim (range checks on the numeric value are irrelevant here: the
`RiskItem` decoder rejects every number). -/
def parseNumber : List Char → Option (JsonValue × List Char)
  | '-' :: cs =>
    match parseNumberCore cs with
    | none => none
    | some (lex, rest) => some (.num (String.mk ('-' :: lex)), rest)
  | cs =>
    match parseNumberCore cs with
    | none => none
    | some (lex, rest) => some (.num (String.mk lex), rest)

mutual

/-- Parse one JSON value starting at the first character of `cs` (callers
skip whitespace).  The `fuel` argument is a termination device only; the
entry point `fromStr` supplies more than enough for any input. -/
def parseValue : Nat → List Char → Option (JsonValue × List Char)
  | 0, _ => none
  | Nat.succ fuel, cs =>
    match cs with
    | [] => none
    | '"' :: rest =>
      match parseStringBody rest [] with
      | none => none
      | some (s, r) => some (.str (String.mk s), r)
    | '[' :: rest => parseArrayBody fuel (skipWs rest)
    | '\x7b' :: rest => parseObjectBody fuel (skipWs rest)
    | 't' :: 'r' :: 'u' :: 'e' :: rest => some (.bool true, rest)
    | 'f' :: 'a' :: 'l' :: 's' :: 'e' :: rest => some (.bool false, rest)
    | 'n' :: 'u' :: 'l' :: 'l' :: rest => some (.null, rest)
    | c :: rest => if c == '-' || c.isDigit then parseNumber (c :: rest) else none

/-- After `[` and whitespace: empty array, or the element loop. -/
def parseArrayBody : Nat → List Char → Option (JsonValue × List Char)
  | 0, _ => none
  | Nat.succ fuel, cs =>
    match cs with
    | ']' :: rest => some (.arr [], rest)
    | _ => parseArrayItems fuel cs []

/-- Array element loop: value, then `,` (next element) or `]` (done).
Trailing commas are rejected (the loop always demands a value). -/
def parseArrayItems : Nat → List Char → List JsonValue → Option (JsonValue × List Char)
  | 0, _, _ => none
  | Nat.succ fuel, cs, acc =>
    match parseValue fuel cs with
    | none => none
    | some (v, r) =>
      match skipWs r with
      | ',' :: r2 => parseArrayItems fuel (skipWs r2) (v :: acc)
      | ']' :: r2 => some (.arr (v :: acc).reverse, r2)
      | _ => none

/-- After an opening brace and whitespace: empty object, or the member loop. -/
def parseObjectBody : Nat → List Char → Option (JsonValue × List Char)
  | 0, _ => none
  | Nat.succ fuel, cs =>
    match cs with
    | '\x7d' :: rest => some (.obj [], rest)
    | _ => parseObjectItems fuel cs []

/-- Object member loop: string key, `:`, value, then `,` or a closing
brace.  Keys must be strings; trailing commas are rejected. -/
def parseObjectItems : Nat → List Char → List (String × JsonValue) → Option (JsonValue × List Char)
  | 0, _, _ => none
  | Nat.succ fuel, cs, acc =>
    match cs with
    | '"' :: r =>
      match parseStringBody r [] with
      | none => none
      | some (k, r1) =>
        match skipWs r1 with
        | ':' :: r2 =>
          match parseValue fuel (skipWs r2) with
          | none => none
          | some (v, r3) =>
            match skipWs r3 with
            | ',' :: r4 => parseObjectItems fuel (skipWs r4) ((String.mk k, v) :: acc)
            | '\x7d' :: r4 => some (.obj ((String.mk k, v) :: acc).reverse, r4)
            | _ => none
        | _ => none
    | _ => none

end

/-- Entry point `serde_json::from_str` for a whole document: leading whitespace, one
value, trailing whitespace, end of input. -/
def fromStr (cs : List Char) : Option JsonValue :=
  match parseValue (3 * cs.length + 16) (skipWs cs) with
  | none => none
  | some (v, rest) => if skipWs rest = [] then some v else none

/-- End-of-object check of serde's derived `Deserialize` for `RiskItem`:
all three required fields must have been seen. -/
def finishFields (s c m : Option String) : Option RiskItem :=
  match s with
  | none => none
  | some sv =>
    match c with
    | none => none
    | some cv =>
      match m with
      | none => none
      | some mv => some ⟨sv, cv, mv⟩

/-- Accept one binding of a required field: the accumulator must still be
unset (else duplicate-field error) and the value must be a JSON string
(else invalid-type error); returns the new accumulator value. -/
def setStr : Option String → JsonValue → Option String
  | none, JsonValue.str x => some x
  | _, _ => none

/-- Field loop of serde's derived `Deserialize` for `RiskItem`: walk the
object's fields in order; a known field must be a JSON string and must not
repeat (duplicate field error); unknown fields are skipped; at the end all
three fields must be present. -/
def decodeFields : List (String × JsonValue) → Option String → Option String → Option String → Option RiskItem
  | [], s, c, m => finishFields s c m
  | (k, v) :: rest, s, c, m =>
    if k = "severity" then
      match setStr s v with
      | some x => decodeFields rest (some x) c m
      | none => none
    else if k = "category" then
      match setStr c v with
      | some x => decodeFields rest s (some x) m
      | none => none
    else if k = "mitigation" then
      match setStr m v with
      | some x => decodeFields rest s c (some x)
      | none => none
    else decodeFields rest s c m

/-- Decode one `RiskItem`: the value must be a JSON object. -/
def decodeRiskItem : JsonValue → Option RiskItem
  | .obj fields => decodeFields fields none none none
  | _ => none

/-- Decode a `Vec<RiskItem>` element by element. -/
def decodeItems : List JsonValue → Option (List RiskItem)
  | [] => some []
  | j :: rest =>
    match decodeRiskItem j with
    | none => none
    | some it =>
      match decodeItems rest with
      | none => none
      | some its => some (it :: its)

/-- Decode a `Vec<RiskItem>`: the value must be a JSON array. -/
def decodeRiskList : JsonValue → Option (List RiskItem)
  | .arr xs => decodeItems xs
  | _ => none

/-- Rust `serde_json::from_str::<Vec<RiskItem>>` (main.rs line 52). -/
def fromStrRiskVec (cs : List Char) : Option (List RiskItem) :=
  match fromStr cs with
  | none => none
  | some j => decodeRiskList j

/-- Index of the first occurrence of `c` (Rust `str::find`, char units). -/
def firstIdxOf (c : Char) : List Char → Option Nat
  | [] => none
  | x :: rest =>
    if x = c then some 0
    else (firstIdxOf c rest).map (fun i => i + 1)

/-- Index of the last occurrence of `c` (Rust `str::rfind`, char units). -/
def lastIdxOf (c : Char) (cs : List Char) : Option Nat :=
  (firstIdxOf c cs.reverse).map (fun i => cs.length - 1 - i)

/-- Outcome of the bracket-slicing step, main.rs lines 45-48.  `panicked`
is Rust's abort when `&content[start..=end]` is reversed, i.e. when
`start > end + 1`: string slicing with an out-of-order range panics. -/
inductive SliceResult where
  | ok (s : List Char)
  | noStart
  | noEnd
  | panicked

/-- Lines 45-48 of main.rs: `let start = content.find('[')...`,
`let end = content.rfind(']')...`, `let json_str = &content[start..=end]`. -/
def extractSlice (content : List Char) : SliceResult :=
  match firstIdxOf '[' content with
  | none => .noStart
  | some start =>
    match lastIdxOf ']' content with
    | none => .noEnd
    | some e =>
      if e + 1 < start then .panicked
      else .ok ((content.drop start).take (e + 1 - start))

/-- Outcome of the extraction half of `analyze_risks_ai` (lines 45-54). -/
inductive ExtractResult where
  | ok (risks : List RiskItem)
  | noArrayStart
  | noArrayEnd
  | parseError
  | panicked

/-- Extraction half of `analyze_risks_ai`: bracket slice, then
`serde_json::from_str::<Vec<RiskItem>>` on the slice. -/
def extractRisks (content : List Char) : ExtractResult :=
  match extractSlice content with
  | .noStart => .noArrayStart
  | .noEnd => .noArrayEnd
  | .panicked => .panicked
  | .ok jsonStr =>
    match fromStrRiskVec jsonStr with
    | some risks => .ok risks
    | none => .parseError

/-- Modelled from the spec, claim C1 wording only (not from the source):
"find the index of the first `[` and the index of the last `]`; if either
is absent, fail; otherwise return exactly the result of parsing the
inclusive substring between those two indices".  The substring is the
mathematical `take`/`drop` slice, which is empty when the indices are
reversed; this definition exists to be compared against `extractRisks`. -/
def claimedExtract (content : List Char) : ExtractResult :=
  match firstIdxOf '[' content with
  | none => .noArrayStart
  | some start =>
    match lastIdxOf ']' content with
    | none => .noArrayEnd
    | some e =>
      match fromStrRiskVec ((content.drop start).take (e + 1 - start)) with
      | some risks => .ok risks
      | none => .parseError

/-- Indexing a `serde_json::Value` by string: object field lookup, `Null` on
miss or non-object (used for `resp_json["choices"]...`). -/
def getKey (j : JsonValue) (k : String) : JsonValue :=
  match j with
  | .obj fields =>
    match fields.find? (fun kv => kv.1 == k) with
    | some kv => kv.2
    | none => .null
  | _ => .null

/-- Indexing a `serde_json::Value` by position: array element, `Null` on miss. -/
def getIdx (j : JsonValue) (i : Nat) : JsonValue :=
  match j with
  | .arr xs => xs.getD i .null
  | _ => .null

/-- Rust `Value::as_str`. -/
def asStr? : JsonValue → Option String
  | .str s => some s
  | _ => none

/-- Lines 39-41: `resp_json["choices"][0]["message"]["content"].as_str()`. -/
def getContent (respJson : JsonValue) : Option String :=
  asStr? (getKey (getKey (getIdx (getKey respJson "choices") 0) "message") "content")

/-- Error cases surfaced by `analyze_risks_ai` through `anyhow::Result`:
transport/JSON failure of the HTTP call, missing content field, the two
bracket-search failures, and the serde parse failure. -/
inductive AiError where
  | network
  | noContent
  | noArrayStart
  | noArrayEnd
  | parseError

/-- Result of `analyze_risks_ai` as seen by the caller: a risk list, an
error, or a panic that aborts the request instead of returning. -/
inductive AnalyzeResult where
  | ok (risks : List RiskItem)
  | err (e : AiError)
  | panicked

/-- Function `analyze_risks_ai` (main.rs lines 5-55) as a function of the outcome
of the outbound HTTP exchange: `.error` is any transport or top-level
JSON-decoding failure of the call (both `?` operators on lines 33 and 35),
`.ok respJson` is the decoded upstream body. -/
def analyzeRisksAi (upstream : Except Unit JsonValue) : AnalyzeResult :=
  match upstream with
  | .error _ => .err .network
  | .ok respJson =>
    match getContent respJson with
    | none => .err .noContent
    | some content =>
      match extractRisks content.toList with
      | .ok risks => .ok risks
      | .noArrayStart => .err .noArrayStart
      | .noArrayEnd => .err .noArrayEnd
      | .parseError => .err .parseError
      | .panicked => .panicked

/-- The hard-coded fallback list built in `evaluate_risks` (lines 139-150). -/
def fallbackRisks : List RiskItem :=
  [⟨"High", "Timeline", "Add buffer time and revalidate milestones."⟩,
   ⟨"Medium", "Dependencies", "Check for alternatives and establish SLAs."⟩]

/-- Handler `evaluate_risks` (main.rs lines 129-154) as a function of the upstream
outcome.  The handler returns `Json<RiskResponse>`, which axum serves with
HTTP status 200, so the status is the constant 200 whenever the handler
returns; `none` models the handler panicking (no response produced). -/
def evaluateRisks (upstream : Except Unit JsonValue) : Option (Nat × List RiskItem) :=
  match analyzeRisksAi upstream with
  | .ok risks => some (200, risks)
  | .err _ => some (200, fallbackRisks)
  | .panicked => none

/-- The fixed system message of the chat request (lines 8-11). -/
def systemMsg : JsonValue :=
  .obj [("role", .str "system"),
        ("content", .str "You are a risk evaluator assistant. Extract project risks with their severity (low, medium, high) and suggested mitigation strategies in JSON format as an array of objects with fields: severity, category, mitigation.")]

/-- The user message embedding the raw description (lines 13-16). -/
def userMsg (projectText : String) : JsonValue :=
  .obj [("role", .str "user"),
        ("content", .str ("Analyze the following project description and return risks:\n\n" ++ projectText))]

/-- The chat-completion request body (lines 18-23). -/
def buildRequestBody (projectText : String) : JsonValue :=
  .obj [("model", .str "gpt-4o-mini"),
        ("messages", .arr [systemMsg, userMsg projectText]),
        ("max_tokens", .num "500"),
        ("temperature", .num "0.3")]

/-- One full handler run against a stubbed upstream: the stub receives the
bearer key and the request body the client would send, and yields the
upstream outcome fed to `evaluate_risks`. -/
def evalRun (apiKey description : String)
    (stub : String → JsonValue → Except Unit JsonValue) : Option (Nat × List RiskItem) :=
  evaluateRisks (stub apiKey (buildRequestBody description))

/-- Lines 96-104 of `main`: `env::var("OPENAI_API_KEY")` with
`unwrap_or_else`.  `envVar` is the variable's value if set; the result is
the key the process runs with, or `none` for the release-build
`panic!`-driven abort (the process does not start serving). -/
def loadApiKey (envVar : Option String) (debugAssertions : Bool) : Option String :=
  match envVar with
  | some v => some v
  | none => if debugAssertions then some "fake-api-key" else none

/-- Statement-level predicate: `fields` binds `name` exactly once, to the
JSON string `val` (extra fields with other names are unconstrained). -/
def HasStrField (fields : List (String × JsonValue)) (name val : String) : Prop :=
  fields.filter (fun kv => decide (kv.1 = name)) = [(name, JsonValue.str val)]

/-- Statement-level predicate: the object `fields` carries exactly the
`RiskItem` `it` in its three required fields, plus arbitrary extras. -/
def GoodItem (fields : List (String × JsonValue)) (it : RiskItem) : Prop :=
  HasStrField fields "severity" it.severity ∧
  HasStrField fields "category" it.category ∧
  HasStrField fields "mitigation" it.mitigation

/-- Invariant of one accumulator of `decodeFields` while walking `fields`:
either the field is still unseen and `fields` binds it exactly once to the
target string, or it is already set to the target and `fields` never binds
it again. -/
def FieldState : Option String → String → String → List (String × JsonValue) → Prop
  | some x, name, target, fields =>
      x = target ∧ fields.filter (fun kv => decide (kv.1 = name)) = []
  | none, name, target, fields =>
      fields.filter (fun kv => decide (kv.1 = name)) = [(name, JsonValue.str target)]

/-- Rust `str::find` misses: no occurrence, no index. -/
theorem firstIdxOf_eq_none {c : Char} : ∀ {l : List Char}, c ∉ l → firstIdxOf c l = none
  | [], _ => rfl
  | x :: t, h => by
    have hx : ¬ x = c := fun hxc => h (by simp [hxc])
    have ht : c ∉ t := fun hct => h (List.mem_cons_of_mem _ hct)
    simp [firstIdxOf, hx, firstIdxOf_eq_none ht]

/-- Rust `str::find` hits whenever the character occurs. -/
theorem firstIdxOf_isSome {c : Char} : ∀ {l : List Char}, c ∈ l → (firstIdxOf c l).isSome
  | [], h => absurd h (List.not_mem_nil c)
  | x :: t, h => by
    by_cases hx : x = c
    · simp [firstIdxOf, hx]
    · have ht : c ∈ t := by
        rcases List.mem_cons.mp h with h1 | h2
        · exact absurd h1.symm hx
        · exact h2
      obtain ⟨i, hi⟩ := Option.isSome_iff_exists.mp (firstIdxOf_isSome ht)
      simp [firstIdxOf, hx, hi]

/-- The first occurrence after a clean prefix sits at the prefix length. -/
theorem firstIdxOf_append {c : Char} : ∀ (pre : List Char), c ∉ pre → ∀ (rest : List Char),
    firstIdxOf c (pre ++ c :: rest) = some pre.length
  | [], _, rest => by simp [firstIdxOf]
  | x :: t, h, rest => by
    have hx : ¬ x = c := fun hxc => h (by simp [hxc])
    have ht : c ∉ t := fun hct => h (List.mem_cons_of_mem _ hct)
    simp [firstIdxOf, hx, firstIdxOf_append t ht rest]

/-- Rust `str::rfind` misses: no occurrence, no index. -/
theorem lastIdxOf_eq_none {c : Char} {l : List Char} (h : c ∉ l) : lastIdxOf c l = none := by
  have hr : c ∉ l.reverse := fun hrev => h (List.mem_reverse.mp hrev)
  simp [lastIdxOf, firstIdxOf_eq_none hr]

/-- The last occurrence before a clean suffix sits right before it. -/
theorem lastIdxOf_append {c : Char} (pre mid post : List Char) (h : c ∉ post) :
    lastIdxOf c (pre ++ (mid ++ [c]) ++ post) = some (pre.length + mid.length) := by
  have h' : c ∉ post.reverse := fun hr => h (List.mem_reverse.mp hr)
  have hrev : (pre ++ (mid ++ [c]) ++ post).reverse
      = post.reverse ++ c :: (mid.reverse ++ pre.reverse) := by
    simp [List.reverse_append]
  have hlen : (pre ++ (mid ++ [c]) ++ post).length
      = pre.length + mid.length + 1 + post.length := by
    simp
    try omega
  simp only [lastIdxOf, hrev, firstIdxOf_append post.reverse h' (mid.reverse ++ pre.reverse),
    Option.map_some', hlen, List.length_reverse]
  congr 1
  omega

/-- The slicing step on content of the shape
prose-without-`[` ++ bracketed-array ++ prose-without-`]` returns exactly
the bracketed array. -/
theorem extractSlice_wrapped (pre mid post : List Char)
    (h1 : '[' ∉ pre) (h2 : ']' ∉ post) :
    extractSlice (pre ++ ('[' :: mid ++ [']']) ++ post) = .ok ('[' :: mid ++ [']']) := by
  have e1 : firstIdxOf '[' (pre ++ ('[' :: mid ++ [']']) ++ post) = some pre.length := by
    have hshape : pre ++ ('[' :: mid ++ [']']) ++ post = pre ++ '[' :: (mid ++ [']'] ++ post) := by
      simp
    rw [hshape, firstIdxOf_append pre h1]
  have e2 : lastIdxOf ']' (pre ++ ('[' :: mid ++ [']']) ++ post)
      = some (pre.length + (mid.length + 1)) := by
    have hshape : pre ++ ('[' :: mid ++ [']']) ++ post = pre ++ (('[' :: mid) ++ [']']) ++ post := by
      simp
    rw [hshape, lastIdxOf_append pre ('[' :: mid) post h2]
    simp
  simp only [extractSlice, e1, e2]
  have hlt : ¬ (pre.length + (mid.length + 1) + 1 < pre.length) := by omega
  rw [if_neg hlt]
  have harith : pre.length + (mid.length + 1) + 1 - pre.length = ('[' :: mid ++ [']']).length := by
    simp
    try omega
  rw [harith]
  have hdrop : (pre ++ ('[' :: mid ++ [']']) ++ post).drop pre.length
      = ('[' :: mid ++ [']']) ++ post := by
    rw [List.append_assoc, List.drop_left]
  rw [hdrop, List.take_left]

/-- A list beginning with `[` and ending with `]` splits as
`'[' :: mid ++ [']']`. -/
theorem exact_array_shape {content : List Char}
    (hh : content.head? = some '[') (hl : content.getLast? = some ']') :
    ∃ mid, content = '[' :: mid ++ [']'] := by
  rcases List.eq_nil_or_concat content with hnil | ⟨L, b, hLb⟩
  · rw [hnil] at hh
    exact absurd hh (by simp)
  · have hb : b = ']' := by
      rw [hLb, List.concat_eq_append, List.getLast?_concat] at hl
      exact Option.some.inj hl
    cases L with
    | nil =>
      rw [hLb, hb, List.concat_eq_append, List.nil_append] at hh
      simp at hh
    | cons x t =>
      have hx : x = '[' := by
        rw [hLb, List.concat_eq_append] at hh
        simpa using hh
      refine ⟨t, ?_⟩
      rw [hLb, hb, hx, List.concat_eq_append]

/-- Content that is exactly a bracketed array parsing as `risks` extracts
to `risks`: the first `[` is the opening bracket and the last `]` is the
closing bracket, so the slice is the whole content. -/
theorem extract_of_exact_array {content : List Char} {risks : List RiskItem}
    (hh : content.head? = some '[') (hl : content.getLast? = some ']')
    (hp : fromStrRiskVec content = some risks) :
    extractRisks content = .ok risks := by
  obtain ⟨mid, hm⟩ := exact_array_shape hh hl
  have hs : extractSlice content = .ok content := by
    have hw := extractSlice_wrapped [] mid [] (by simp) (by simp)
    rw [hm]
    simpa using hw
  simp only [extractRisks, hs, hp]

/-- C1: the claim says the extractor, given both brackets, returns exactly
the result of parsing the inclusive substring between the first `[` and
the last `]`.  On `"] x ["` both brackets are present, yet the code
panics in the slice `&content[4..=0]` instead of returning the parse
result of the (empty) substring that the claimed algorithm
(`claimedExtract`) yields a parse failure on. -/
theorem C1_reversed_brackets_divergence :
    extractRisks ("] x [".toList) = .panicked ∧
    claimedExtract ("] x [".toList) = .parseError :=
  ⟨rfl, rfl⟩

/-- C2: the claim says the extractor is total and never panics, naming
`"] text ["` explicitly.  Evaluating the embedded code there: the slice
step panics (`start = 7 > end + 1 = 1`), and the handler therefore
produces no response at all (modelled as `none`) rather than an error
mapped to the fallback. -/
theorem C2_reversed_brackets_panic :
    extractRisks ("] text [".toList) = .panicked ∧
    evaluateRisks (.ok (JsonValue.obj [("choices", JsonValue.arr [JsonValue.obj
      [("message", JsonValue.obj [("content", JsonValue.str "] text [")])]])])) = none :=
  ⟨rfl, rfl⟩

/-- C3: for upstream content with no `[` or no `]`, extraction fails with
the corresponding bracket-search error, and the handler answers with
exactly the fixed two-item fallback sequence, in order. -/
theorem C3_fallback_on_missing_brackets (content : String)
    (h : '[' ∉ content.toList ∨ ']' ∉ content.toList) :
    (extractRisks content.toList = .noArrayStart ∨ extractRisks content.toList = .noArrayEnd) ∧
    ∀ (respJson : JsonValue), getContent respJson = some content →
      evaluateRisks (.ok respJson) = some (200,
        [⟨"High", "Timeline", "Add buffer time and revalidate milestones."⟩,
         ⟨"Medium", "Dependencies", "Check for alternatives and establish SLAs."⟩]) := by
  have hex : extractRisks content.toList = .noArrayStart ∨
      extractRisks content.toList = .noArrayEnd := by
    by_cases hb : '[' ∈ content.toList
    · have hr : ']' ∉ content.toList := by
        rcases h with h1 | h2
        · exact absurd hb h1
        · exact h2
      right
      obtain ⟨i, hi⟩ := Option.isSome_iff_exists.mp (firstIdxOf_isSome hb)
      simp only [extractRisks, extractSlice, hi, lastIdxOf_eq_none hr]
    · left
      simp only [extractRisks, extractSlice, firstIdxOf_eq_none hb]
  refine ⟨hex, ?_⟩
  intro respJson hresp
  rcases hex with hx | hx <;>
    · simp only [evaluateRisks, analyzeRisksAi, hresp, hx]
      rfl

/-- C3 witness: a concrete upstream body whose content has no brackets. -/
theorem C3_fallback_on_missing_brackets_witness :
    evaluateRisks (.ok (JsonValue.obj [("choices", JsonValue.arr [JsonValue.obj
      [("message", JsonValue.obj [("content", JsonValue.str "no array here")])]])])) = some (200,
      [⟨"High", "Timeline", "Add buffer time and revalidate milestones."⟩,
       ⟨"Medium", "Dependencies", "Check for alternatives and establish SLAs."⟩]) :=
  (C3_fallback_on_missing_brackets "no array here" (Or.inl (by decide))).2 _ rfl

/-- C4: whenever the client or the extractor surfaces an error (any
`AiError`), the handler responds with the fixed fallback and status 200;
and every response the handler produces carries status 200, so the status
code never distinguishes fallback from success. -/
theorem C4_fallback_and_uniform_status :
    (∀ (upstream : Except Unit JsonValue) (e : AiError),
        analyzeRisksAi upstream = .err e →
        evaluateRisks upstream = some (200, fallbackRisks)) ∧
    (∀ (upstream : Except Unit JsonValue) (res : Nat × List RiskItem),
        evaluateRisks upstream = some res → res.1 = 200) := by
  constructor
  · intro u e h
    simp only [evaluateRisks, h]
  · intro u res h
    cases hA : analyzeRisksAi u <;> simp only [evaluateRisks, hA] at h
    · rw [← Option.some.inj h]
    · rw [← Option.some.inj h]
    · exact Option.noConfusion h

/-- C4 witness: a simulated network failure yields the fallback with 200. -/
theorem C4_fallback_and_uniform_status_witness :
    evaluateRisks (.error ()) = some (200, fallbackRisks) :=
  C4_fallback_and_uniform_status.1 (.error ()) .network rfl

/-- C5: content of the shape prose + well-formed JSON array of RiskItem
records + prose, with no `[` in the leading prose and no `]` in the
trailing prose, extracts to exactly the array's elements in order. -/
theorem C5_prose_wrapped_extraction
    (pre arr post : List Char) (risks : List RiskItem)
    (h1 : '[' ∉ pre) (h2 : ']' ∉ post)
    (hh : arr.head? = some '[') (hl : arr.getLast? = some ']')
    (hp : fromStrRiskVec arr = some risks) :
    extractRisks (pre ++ arr ++ post) = .ok risks := by
  obtain ⟨mid, hm⟩ := exact_array_shape hh hl
  subst hm
  have hs := extractSlice_wrapped pre mid post h1 h2
  simp only [extractRisks, hs, hp]

/-- C5 witness: the spec's own example, prose around a one-element array. -/
theorem C5_prose_wrapped_extraction_witness :
    extractRisks ("Sure! Here are the risks: ".toList
        ++ "[\x7b\"severity\":\"High\",\"category\":\"Timeline\",\"mitigation\":\"Add buffer\"\x7d]".toList
        ++ " Hope this helps.".toList)
      = .ok [⟨"High", "Timeline", "Add buffer"⟩] :=
  C5_prose_wrapped_extraction _ _ _ _ (by decide) (by decide) rfl rfl rfl

/-- C6 counterexample: the claim asserts some content consisting of a
single well-formed JSON array of RiskItem records, with a literal `]`
inside a mitigation string, makes extraction truncate (not return the
array's elements).  No such content exists: `rfind` takes the last `]`,
which is the closing bracket, so the slice is the whole array. -/
theorem C6_no_inside_bracket_truncation :
    ¬ ∃ (content : List Char) (risks : List RiskItem),
        content.head? = some '[' ∧ content.getLast? = some ']' ∧
        fromStrRiskVec content = some risks ∧
        (∃ item ∈ risks, ']' ∈ item.mitigation.toList) ∧
        extractRisks content ≠ .ok risks := by
  rintro ⟨content, risks, hh, hl, hp, -, hne⟩
  exact hne (extract_of_exact_array hh hl hp)

/-- C6 (amended): content consisting of a single well-formed JSON array of
RiskItem records extracts to exactly the array's elements — in particular
even when a mitigation string contains a literal `]` before the
array-closing bracket. -/
theorem C6_exact_array_extraction (content : List Char) (risks : List RiskItem)
    (hh : content.head? = some '[') (hl : content.getLast? = some ']')
    (hp : fromStrRiskVec content = some risks) :
    extractRisks content = .ok risks :=
  extract_of_exact_array hh hl hp

/-- C6 witness: a single-array content whose mitigation holds a `]`. -/
theorem C6_exact_array_extraction_witness :
    extractRisks ("[\x7b\"severity\":\"Low\",\"category\":\"Ops\",\"mitigation\":\"escalate ] fast\"\x7d]".toList)
      = .ok [⟨"Low", "Ops", "escalate ] fast"⟩] :=
  C6_exact_array_extraction _ _ rfl rfl rfl

/-- C7: with the environment variable absent the config loader substitutes
the placeholder under debug assertions and aborts startup (no key, the
process does not serve) in a release build; a present value is used
verbatim with no validation. -/
theorem C7_api_key_loading :
    loadApiKey none true = some "fake-api-key" ∧
    loadApiKey none false = none ∧
    ∀ (v : String) (debugAssertions : Bool), loadApiKey (some v) debugAssertions = some v :=
  ⟨rfl, rfl, fun _ _ => rfl⟩

/-- C8: the handler is deterministic — two evaluations of the same request
against the same deterministic stub upstream yield identical results.  The
embedded handler is a pure function of the key, the description and the
stub reply; there is no other state for it to read. -/
theorem C8_handler_deterministic :
    ∀ (apiKey description : String) (stub : String → JsonValue → Except Unit JsonValue),
      evalRun apiKey description stub = evalRun apiKey description stub :=
  fun _ _ _ => rfl

/-- C10: when the bracket-delimited slice of the content is the empty
JSON array `[]`, extraction returns the empty risk list and the handler
responds 200 with an empty sequence, not the fallback. -/
theorem C10_empty_array_success (content : String) (respJson : JsonValue)
    (hs : extractSlice content.toList = .ok ['[', ']'])
    (hresp : getContent respJson = some content) :
    extractRisks content.toList = .ok [] ∧
    evaluateRisks (.ok respJson) = some (200, []) := by
  have hex : extractRisks content.toList = .ok [] := by
    simp only [extractRisks, hs]
    rfl
  refine ⟨hex, ?_⟩
  simp only [evaluateRisks, analyzeRisksAi, hresp, hex]

/-- A cons whose key differs from `name` is transparent to the `name` filter. -/
theorem filter_key_cons_ne (name k : String) (v : JsonValue)
    (rest : List (String × JsonValue)) (h : k ≠ name) :
    ((k, v) :: rest).filter (fun kv => decide (kv.1 = name))
      = rest.filter (fun kv => decide (kv.1 = name)) := by
  simp [List.filter_cons, h]

/-- A cons whose key is `name` heads the `name` filter. -/
theorem filter_key_cons_eq (name : String) (v : JsonValue)
    (rest : List (String × JsonValue)) :
    ((name, v) :: rest).filter (fun kv => decide (kv.1 = name))
      = (name, v) :: rest.filter (fun kv => decide (kv.1 = name)) := by
  simp [List.filter_cons]

/-- An accumulator invariant ignores fields with other keys. -/
theorem FieldState_cons_ne {cur : Option String} {name target : String} {k : String}
    {v : JsonValue} {rest : List (String × JsonValue)} (hk : k ≠ name) :
    FieldState cur name target ((k, v) :: rest) ↔ FieldState cur name target rest := by
  cases cur <;> simp [FieldState, filter_key_cons_ne name k v rest hk]

/-- Completeness of the derived field loop: if each accumulator satisfies
its invariant for the target `RiskItem`, the loop returns that item. -/
theorem decodeFields_complete :
    ∀ (fields : List (String × JsonValue)) (s c m : Option String) (it : RiskItem),
      FieldState s "severity" it.severity fields →
      FieldState c "category" it.category fields →
      FieldState m "mitigation" it.mitigation fields →
      decodeFields fields s c m = some it := by
  intro fields
  induction fields with
  | nil =>
    intro s c m it hs hc hm
    cases s with
    | none => simp [FieldState] at hs
    | some sv =>
      cases c with
      | none => simp [FieldState] at hc
      | some cv =>
        cases m with
        | none => simp [FieldState] at hm
        | some mv =>
          simp [FieldState] at hs hc hm
          subst hs
          subst hc
          subst hm
          rfl
  | cons kv rest ih =>
    obtain ⟨k, v⟩ := kv
    intro s c m it hs hc hm
    by_cases hk1 : k = "severity"
    · subst hk1
      cases s with
      | some sv =>
        exfalso
        have h2 := hs.2
        rw [filter_key_cons_eq] at h2
        exact List.cons_ne_nil _ _ h2
      | none =>
        rw [FieldState, filter_key_cons_eq] at hs
        injection hs with h1 h2
        have hv : v = JsonValue.str it.severity := congrArg Prod.snd h1
        subst hv
        show decodeFields rest (some it.severity) c m = some it
        apply ih
        · exact ⟨rfl, h2⟩
        · exact (FieldState_cons_ne (by decide)).mp hc
        · exact (FieldState_cons_ne (by decide)).mp hm
    · by_cases hk2 : k = "category"
      · subst hk2
        cases c with
        | some cv =>
          exfalso
          have h2 := hc.2
          rw [filter_key_cons_eq] at h2
          exact List.cons_ne_nil _ _ h2
        | none =>
          rw [FieldState, filter_key_cons_eq] at hc
          injection hc with h1 h2
          have hv : v = JsonValue.str it.category := congrArg Prod.snd h1
          subst hv
          show decodeFields rest s (some it.category) m = some it
          apply ih
          · exact (FieldState_cons_ne (by decide)).mp hs
          · exact ⟨rfl, h2⟩
          · exact (FieldState_cons_ne (by decide)).mp hm
      · by_cases hk3 : k = "mitigation"
        · subst hk3
          cases m with
          | some mv =>
            exfalso
            have h2 := hm.2
            rw [filter_key_cons_eq] at h2
            exact List.cons_ne_nil _ _ h2
          | none =>
            rw [FieldState, filter_key_cons_eq] at hm
            injection hm with h1 h2
            have hv : v = JsonValue.str it.mitigation := congrArg Prod.snd h1
            subst hv
            show decodeFields rest s c (some it.mitigation) = some it
            apply ih
            · exact (FieldState_cons_ne (by decide)).mp hs
            · exact (FieldState_cons_ne (by decide)).mp hc
            · exact ⟨rfl, h2⟩
        · simp only [decodeFields]
          rw [if_neg hk1, if_neg hk2, if_neg hk3]
          apply ih
          · exact (FieldState_cons_ne hk1).mp hs
          · exact (FieldState_cons_ne hk2).mp hc
          · exact (FieldState_cons_ne hk3).mp hm

/-- A well-shaped object (its three required fields bound exactly once to
the item's strings, extras arbitrary) decodes to that item. -/
theorem decodeRiskItem_good {fields : List (String × JsonValue)} {it : RiskItem}
    (h : GoodItem fields it) : decodeRiskItem (.obj fields) = some it :=
  decodeFields_complete fields none none none it h.1 h.2.1 h.2.2

/-- Element-wise good objects decode to the corresponding item list. -/
theorem decodeItems_complete :
    ∀ (items : List (List (String × JsonValue))) (its : List RiskItem),
      List.Forall₂ GoodItem items its →
      decodeItems (items.map JsonValue.obj) = some its := by
  intro items its h
  induction h with
  | nil => rfl
  | cons h1 h2 ih =>
    simp only [List.map_cons, decodeItems, decodeRiskItem_good h1, ih]

/-- With no `severity` field anywhere and the accumulator unset, the field
loop cannot finish: the final check fails (or an earlier error fires). -/
theorem decodeFields_missing_severity :
    ∀ (fields : List (String × JsonValue)) (c m : Option String),
      (∀ kv ∈ fields, kv.1 ≠ "severity") →
      decodeFields fields none c m = none
  | [], c, m, _ => by cases c <;> cases m <;> rfl
  | (k, v) :: rest, c, m, h => by
    have hk : k ≠ "severity" := h (k, v) (List.mem_cons_self _ _)
    have ht : ∀ kv ∈ rest, kv.1 ≠ "severity" := fun kv hkv => h kv (List.mem_cons_of_mem _ hkv)
    simp only [decodeFields]
    rw [if_neg hk]
    by_cases hk2 : k = "category"
    · rw [if_pos hk2]
      cases c with
      | some cv => cases v <;> rfl
      | none =>
        cases v with
        | str x => exact decodeFields_missing_severity rest (some x) m ht
        | null => rfl
        | bool b => rfl
        | num l => rfl
        | arr xs => rfl
        | obj fs => rfl
    · by_cases hk3 : k = "mitigation"
      · rw [if_neg hk2, if_pos hk3]
        cases m with
        | some mv => cases v <;> rfl
        | none =>
          cases v with
          | str x => exact decodeFields_missing_severity rest c (some x) ht
          | null => rfl
          | bool b => rfl
          | num l => rfl
          | arr xs => rfl
          | obj fs => rfl
      · rw [if_neg hk2, if_neg hk3]
        exact decodeFields_missing_severity rest c m ht

/-- Same as the previous lemma, for a missing `category` field. -/
theorem decodeFields_missing_category :
    ∀ (fields : List (String × JsonValue)) (s m : Option String),
      (∀ kv ∈ fields, kv.1 ≠ "category") →
      decodeFields fields s none m = none
  | [], s, m, _ => by cases s <;> cases m <;> rfl
  | (k, v) :: rest, s, m, h => by
    have hk : k ≠ "category" := h (k, v) (List.mem_cons_self _ _)
    have ht : ∀ kv ∈ rest, kv.1 ≠ "category" := fun kv hkv => h kv (List.mem_cons_of_mem _ hkv)
    simp only [decodeFields]
    by_cases hk1 : k = "severity"
    · rw [if_pos hk1]
      cases s with
      | some sv => cases v <;> rfl
      | none =>
        cases v with
        | str x => exact decodeFields_missing_category rest (some x) m ht
        | null => rfl
        | bool b => rfl
        | num l => rfl
        | arr xs => rfl
        | obj fs => rfl
    · rw [if_neg hk1, if_neg hk]
      by_cases hk3 : k = "mitigation"
      · rw [if_pos hk3]
        cases m with
        | some mv => cases v <;> rfl
        | none =>
          cases v with
          | str x => exact decodeFields_missing_category rest s (some x) ht
          | null => rfl
          | bool b => rfl
          | num l => rfl
          | arr xs => rfl
          | obj fs => rfl
      · rw [if_neg hk3]
        exact decodeFields_missing_category rest s m ht

/-- Same as the previous lemma, for a missing `mitigation` field. -/
theorem decodeFields_missing_mitigation :
    ∀ (fields : List (String × JsonValue)) (s c : Option String),
      (∀ kv ∈ fields, kv.1 ≠ "mitigation") →
      decodeFields fields s c none = none
  | [], s, c, _ => by cases s <;> cases c <;> rfl
  | (k, v) :: rest, s, c, h => by
    have hk : k ≠ "mitigation" := h (k, v) (List.mem_cons_self _ _)
    have ht : ∀ kv ∈ rest, kv.1 ≠ "mitigation" := fun kv hkv => h kv (List.mem_cons_of_mem _ hkv)
    simp only [decodeFields]
    by_cases hk1 : k = "severity"
    · rw [if_pos hk1]
      cases s with
      | some sv => cases v <;> rfl
      | none =>
        cases v with
        | str x => exact decodeFields_missing_mitigation rest (some x) c ht
        | null => rfl
        | bool b => rfl
        | num l => rfl
        | arr xs => rfl
        | obj fs => rfl
    · by_cases hk2 : k = "category"
      · rw [if_neg hk1, if_pos hk2]
        cases c with
        | some cv => cases v <;> rfl
        | none =>
          cases v with
          | str x => exact decodeFields_missing_mitigation rest s (some x) ht
          | null => rfl
          | bool b => rfl
          | num l => rfl
          | arr xs => rfl
          | obj fs => rfl
      · rw [if_neg hk1, if_neg hk2, if_neg hk]
        exact decodeFields_missing_mitigation rest s c ht

/-- A `severity` field bound exactly once, to a non-string value, makes
the field loop fail. -/
theorem decodeFields_bad_severity :
    ∀ (fields : List (String × JsonValue)) (s c m : Option String) (v : JsonValue),
      fields.filter (fun kv => decide (kv.1 = "severity")) = [("severity", v)] →
      (∀ t, v ≠ JsonValue.str t) →
      decodeFields fields s c m = none
  | [], _, _, _, v, hf, _ => by simp at hf
  | (k, w) :: rest, s, c, m, v, hf, hv => by
    by_cases hk : k = "severity"
    · subst hk
      rw [filter_key_cons_eq] at hf
      injection hf with h1 h2
      have hw : w = v := congrArg Prod.snd h1
      cases s with
      | some sv => cases w <;> rfl
      | none =>
        cases w with
        | str t => exact absurd hw.symm (hv t)
        | null => rfl
        | bool b => rfl
        | num l => rfl
        | arr xs => rfl
        | obj fs => rfl
    · have hf' : rest.filter (fun kv => decide (kv.1 = "severity")) = [("severity", v)] := by
        rw [filter_key_cons_ne _ _ _ _ hk] at hf
        exact hf
      simp only [decodeFields]
      rw [if_neg hk]
      by_cases hk2 : k = "category"
      · rw [if_pos hk2]
        cases c with
        | some cv => cases w <;> rfl
        | none =>
          cases w with
          | str x => exact decodeFields_bad_severity rest s (some x) m v hf' hv
          | null => rfl
          | bool b => rfl
          | num l => rfl
          | arr xs => rfl
          | obj fs => rfl
      · by_cases hk3 : k = "mitigation"
        · rw [if_neg hk2, if_pos hk3]
          cases m with
          | some mv => cases w <;> rfl
          | none =>
            cases w with
            | str x => exact decodeFields_bad_severity rest s c (some x) v hf' hv
            | null => rfl
            | bool b => rfl
            | num l => rfl
            | arr xs => rfl
            | obj fs => rfl
        · rw [if_neg hk2, if_neg hk3]
          exact decodeFields_bad_severity rest s c m v hf' hv

/-- A `category` field bound exactly once, to a non-string value, makes
the field loop fail. -/
theorem decodeFields_bad_category :
    ∀ (fields : List (String × JsonValue)) (s c m : Option String) (v : JsonValue),
      fields.filter (fun kv => decide (kv.1 = "category")) = [("category", v)] →
      (∀ t, v ≠ JsonValue.str t) →
      decodeFields fields s c m = none
  | [], _, _, _, v, hf, _ => by simp at hf
  | (k, w) :: rest, s, c, m, v, hf, hv => by
    by_cases hk : k = "category"
    · subst hk
      rw [filter_key_cons_eq] at hf
      injection hf with h1 h2
      have hw : w = v := congrArg Prod.snd h1
      cases c with
      | some cv => cases w <;> rfl
      | none =>
        cases w with
        | str t => exact absurd hw.symm (hv t)
        | null => rfl
        | bool b => rfl
        | num l => rfl
        | arr xs => rfl
        | obj fs => rfl
    · have hf' : rest.filter (fun kv => decide (kv.1 = "category")) = [("category", v)] := by
        rw [filter_key_cons_ne _ _ _ _ hk] at hf
        exact hf
      simp only [decodeFields]
      by_cases hk1 : k = "severity"
      · rw [if_pos hk1]
        cases s with
        | some sv => cases w <;> rfl
        | none =>
          cases w with
          | str x => exact decodeFields_bad_category rest (some x) c m v hf' hv
          | null => rfl
          | bool b => rfl
          | num l => rfl
          | arr xs => rfl
          | obj fs => rfl
      · rw [if_neg hk1, if_neg hk]
        by_cases hk3 : k = "mitigation"
        · rw [if_pos hk3]
          cases m with
          | some mv => cases w <;> rfl
          | none =>
            cases w with
            | str x => exact decodeFields_bad_category rest s c (some x) v hf' hv
            | null => rfl
            | bool b => rfl
            | num l => rfl
            | arr xs => rfl
            | obj fs => rfl
        · rw [if_neg hk3]
          exact decodeFields_bad_category rest s c m v hf' hv

/-- A `mitigation` field bound exactly once, to a non-string value, makes
the field loop fail. -/
theorem decodeFields_bad_mitigation :
    ∀ (fields : List (String × JsonValue)) (s c m : Option String) (v : JsonValue),
      fields.filter (fun kv => decide (kv.1 = "mitigation")) = [("mitigation", v)] →
      (∀ t, v ≠ JsonValue.str t) →
      decodeFields fields s c m = none
  | [], _, _, _, v, hf, _ => by simp at hf
  | (k, w) :: rest, s, c, m, v, hf, hv => by
    by_cases hk : k = "mitigation"
    · subst hk
      rw [filter_key_cons_eq] at hf
      injection hf with h1 h2
      have hw : w = v := congrArg Prod.snd h1
      cases m with
      | some mv => cases w <;> rfl
      | none =>
        cases w with
        | str t => exact absurd hw.symm (hv t)
        | null => rfl
        | bool b => rfl
        | num l => rfl
        | arr xs => rfl
        | obj fs => rfl
    · have hf' : rest.filter (fun kv => decide (kv.1 = "mitigation")) = [("mitigation", v)] := by
        rw [filter_key_cons_ne _ _ _ _ hk] at hf
        exact hf
      simp only [decodeFields]
      by_cases hk1 : k = "severity"
      · rw [if_pos hk1]
        cases s with
        | some sv => cases w <;> rfl
        | none =>
          cases w with
          | str x => exact decodeFields_bad_mitigation rest (some x) c m v hf' hv
          | null => rfl
          | bool b => rfl
          | num l => rfl
          | arr xs => rfl
          | obj fs => rfl
      · by_cases hk2 : k = "category"
        · rw [if_neg hk1, if_pos hk2]
          cases c with
          | some cv => cases w <;> rfl
          | none =>
            cases w with
            | str x => exact decodeFields_bad_mitigation rest s (some x) m v hf' hv
            | null => rfl
            | bool b => rfl
            | num l => rfl
            | arr xs => rfl
            | obj fs => rfl
        · rw [if_neg hk1, if_neg hk2, if_neg hk]
          exact decodeFields_bad_mitigation rest s c m v hf' hv

/-- One undecodable element fails the whole sequence decode. -/
theorem decodeItems_of_mem_none :
    ∀ (js : List JsonValue) (j : JsonValue), j ∈ js → decodeRiskItem j = none →
      decodeItems js = none
  | [], j, hmem, _ => absurd hmem (List.not_mem_nil j)
  | a :: t, j, hmem, hj => by
    rcases List.mem_cons.mp hmem with heq | htail
    · subst heq
      simp only [decodeItems, hj]
    · cases ha : decodeRiskItem a with
      | none => simp only [decodeItems, ha]
      | some it => simp only [decodeItems, ha, decodeItems_of_mem_none t j htail hj]

/-- C9: the derived `RiskItem` decoder tolerates extra fields but not
missing or mistyped ones.  (1) An array of objects each binding the three
required fields exactly once to strings — plus arbitrary extra fields —
decodes to exactly those items, extras ignored.  (2) An object missing one
of the three fields fails.  (3) An object binding one of the three fields
(exactly once) to a non-string value fails.  (4) One failing element fails
the whole array. -/
theorem C9_decoder_field_discipline :
    (∀ (items : List (List (String × JsonValue))) (its : List RiskItem),
        List.Forall₂ GoodItem items its →
        decodeRiskList (.arr (items.map JsonValue.obj)) = some its) ∧
    (∀ (fields : List (String × JsonValue)),
        ((∀ kv ∈ fields, kv.1 ≠ "severity") ∨ (∀ kv ∈ fields, kv.1 ≠ "category") ∨
         (∀ kv ∈ fields, kv.1 ≠ "mitigation")) →
        decodeRiskItem (.obj fields) = none) ∧
    (∀ (fields : List (String × JsonValue)) (name : String) (v : JsonValue),
        (name = "severity" ∨ name = "category" ∨ name = "mitigation") →
        fields.filter (fun kv => decide (kv.1 = name)) = [(name, v)] →
        (∀ t, v ≠ JsonValue.str t) →
        decodeRiskItem (.obj fields) = none) ∧
    (∀ (js : List JsonValue) (j : JsonValue), j ∈ js → decodeRiskItem j = none →
        decodeRiskList (.arr js) = none) := by
  refine ⟨?_, ?_, ?_, ?_⟩
  · intro items its h
    exact decodeItems_complete items its h
  · rintro fields (h | h | h)
    · exact decodeFields_missing_severity fields none none h
    · exact decodeFields_missing_category fields none none h
    · exact decodeFields_missing_mitigation fields none none h
  · rintro fields name v (rfl | rfl | rfl) hf hv
    · exact decodeFields_bad_severity fields none none none v hf hv
    · exact decodeFields_bad_category fields none none none v hf hv
    · exact decodeFields_bad_mitigation fields none none none v hf hv
  · intro js j hmem hj
    exact decodeItems_of_mem_none js j hmem hj

/-- C9 witness: a one-element array whose object carries the three fields
plus an extra `note` field, decoded with the extra ignored. -/
theorem C9_decoder_field_discipline_witness :
    decodeRiskList (JsonValue.arr [JsonValue.obj
      [("severity", JsonValue.str "High"), ("category", JsonValue.str "Ops"),
       ("mitigation", JsonValue.str "Review deps"), ("note", JsonValue.str "extra")]])
      = some [⟨"High", "Ops", "Review deps"⟩] :=
  C9_decoder_field_discipline.1
    [[("severity", JsonValue.str "High"), ("category", JsonValue.str "Ops"),
      ("mitigation", JsonValue.str "Review deps"), ("note", JsonValue.str "extra")]]
    [⟨"High", "Ops", "Review deps"⟩]
    (List.Forall₂.cons ⟨rfl, rfl, rfl⟩ List.Forall₂.nil)

/-- C10 witness: concrete content whose slice is `[]`. -/
theorem C10_empty_array_success_witness :
    extractRisks ("Result: [] done".toList) = .ok [] ∧
    evaluateRisks (.ok (JsonValue.obj [("choices", JsonValue.arr [JsonValue.obj
      [("message", JsonValue.obj [("content", JsonValue.str "Result: [] done")])]])]))
      = some (200, []) :=
  C10_empty_array_success "Result: [] done" _ rfl rfl
